import Mathlib

/-!
# Verification of the RustySearch mini search engine

Shallow embedding of the core of the repository
(`src/tokenize.rs`, `src/index.rs`, `src/crawler.rs`) together with
theorems settling the specification claims.

Conventions of the embedding:

* Rust `HashMap` values are embedded as association lists
  (`List (key × value)`) whose operations (`lookupAL`, `updateAL`) mirror
  `HashMap::get` / the `entry(..).or_…` update pattern.  A `HashMap` can
  never hold a key twice, which corresponds to the key-list `Nodup`
  invariant; all update operations below preserve it.
* Rust `HashSet<String>` values are embedded as `Finset String`.
* Machine integers (`u32`, `usize`) are embedded as `Nat`; none of the
  counters involved can overflow in any claim considered here, and no
  wrap-around arithmetic occurs in the source.
-/

namespace RustySearch

/-! ## Tokenizer (`src/tokenize.rs`)

`tokenize` splits on whitespace, strips leading/trailing non-alphanumeric
characters from each piece, lowercases, and drops pieces that become empty.
Rust's `split_whitespace` yields no empty pieces; `splitWhitespace` below is
its direct structural embedding on the character sequence (second argument:
the current piece, accumulated in reverse).  Rust's Unicode
`char::is_alphanumeric` / `to_lowercase` are embedded by Lean's
`Char.isAlphanum` / `Char.toLower`; the claims do not depend on behaviour
outside the ASCII range. -/

/-- Embedding of Rust `str::trim_matches`: remove leading and trailing
characters satisfying `p`. -/
def trim_matches (p : Char → Bool) (cs : List Char) : List Char :=
  ((cs.dropWhile p).reverse.dropWhile p).reverse

/-- Embedding of Rust `str::split_whitespace` on a character list. -/
def splitWhitespace : List Char → List Char → List (List Char)
  | [], [] => []
  | [], cur => [cur.reverse]
  | c :: cs, cur =>
    if c.isWhitespace then
      match cur with
      | [] => splitWhitespace cs []
      | _ => cur.reverse :: splitWhitespace cs []
    else splitWhitespace cs (c :: cur)

/-- Embedding of `tokenize::tokenize`: split text into words by whitespace,
strip non-alphanumeric edges, lowercase, drop empties. -/
def tokenize (text : String) : List String :=
  ((splitWhitespace text.data []).map
      (fun cs => String.mk ((trim_matches (fun c => !c.isAlphanum) cs).map Char.toLower))).filter
    (fun s => !s.isEmpty)

/-! ## Association-list embedding of `HashMap` -/

/-- `HashMap::get`: first value stored under key `k`. -/
def lookupAL {β : Type} : List (String × β) → String → Option β
  | [], _ => none
  | (k', v) :: rest, k => if k' = k then some v else lookupAL rest k

/-- The `entry(k).or_…` update pattern: replace the value under `k`
(applying `f` to `some` of the old value), or append `(k, f none)` if `k`
is absent. -/
def updateAL {β : Type} : List (String × β) → String → (Option β → β) → List (String × β)
  | [], k, f => [(k, f none)]
  | (k', v) :: rest, k, f =>
    if k' = k then (k', f (some v)) :: rest else (k', v) :: updateAL rest k f

theorem lookupAL_updateAL_self {β : Type} (m : List (String × β)) (k : String)
    (f : Option β → β) : lookupAL (updateAL m k f) k = some (f (lookupAL m k)) := by
  induction m with
  | nil => simp [lookupAL, updateAL]
  | cons p rest ih =>
    obtain ⟨k', v⟩ := p
    by_cases h : k' = k <;> simp [lookupAL, updateAL, h, ih]

theorem lookupAL_updateAL_ne {β : Type} (m : List (String × β)) {k k' : String}
    (f : Option β → β) (h : k' ≠ k) : lookupAL (updateAL m k f) k' = lookupAL m k' := by
  induction m with
  | nil => simp [lookupAL, updateAL, Ne.symm h]
  | cons p rest ih =>
    obtain ⟨k₀, v⟩ := p
    by_cases h0 : k₀ = k
    · subst h0
      simp [lookupAL, updateAL, Ne.symm h]
    · by_cases h1 : k₀ = k' <;> simp [lookupAL, updateAL, h0, h1, h, ih]

theorem lookupAL_eq_none {β : Type} {m : List (String × β)} {k : String}
    (h : k ∉ m.map Prod.fst) : lookupAL m k = none := by
  induction m with
  | nil => rfl
  | cons p rest ih =>
    obtain ⟨k', v⟩ := p
    simp only [List.map_cons, List.mem_cons] at h
    push_neg at h
    simp [lookupAL, Ne.symm h.1, ih h.2]

theorem mem_keys_updateAL {β : Type} (m : List (String × β)) (k a : String)
    (f : Option β → β) :
    a ∈ (updateAL m k f).map Prod.fst ↔ a ∈ m.map Prod.fst ∨ a = k := by
  induction m with
  | nil => simp [updateAL]
  | cons p rest ih =>
    obtain ⟨k', v⟩ := p
    by_cases h : k' = k
    · subst h
      by_cases ha : a = k' <;> simp [updateAL, ha]
    · simp only [updateAL, h, if_false, List.map_cons, List.mem_cons, ih]
      tauto

theorem nodup_keys_updateAL {β : Type} {m : List (String × β)} (k : String)
    (f : Option β → β) (h : (m.map Prod.fst).Nodup) :
    ((updateAL m k f).map Prod.fst).Nodup := by
  induction m with
  | nil => simp [updateAL]
  | cons p rest ih =>
    obtain ⟨k', v⟩ := p
    simp only [List.map_cons, List.nodup_cons] at h
    by_cases hk : k' = k
    · simpa [updateAL, hk] using h
    · simp only [updateAL, if_neg hk, List.map_cons, List.nodup_cons]
      refine ⟨?_, ih h.2⟩
      rw [mem_keys_updateAL]
      rintro (hm | hm)
      · exact h.1 hm
      · exact hk hm

theorem lookupAL_of_mem {β : Type} {m : List (String × β)} {k : String} {v : β}
    (hnd : (m.map Prod.fst).Nodup) (hmem : (k, v) ∈ m) : lookupAL m k = some v := by
  induction m with
  | nil => cases hmem
  | cons p rest ih =>
    obtain ⟨k', v'⟩ := p
    simp only [List.map_cons, List.nodup_cons] at hnd
    rcases List.mem_cons.1 hmem with h | h
    · injection h with hk hv
      subst hk
      subst hv
      simp [lookupAL]
    · have hne : k' ≠ k := by
        rintro rfl
        exact hnd.1 (List.mem_map_of_mem Prod.fst h)
      simp [lookupAL, hne, ih hnd.2 h]

/-! ## Crawl results and the TF index (`src/index.rs`) -/

/-- Embedding of `crawler::CrawlResult` as consumed by the index builder:
per-page URL, title, body text and extracted links. -/
structure CrawlResult where
  url : String
  title : String
  body_text : String
  links : List String
deriving DecidableEq

/-- The `term_tf` map: term -> url -> term count in that document. -/
abbrev TermTf := List (String × List (String × Nat))

/-- Embedding of `IndexWithTf`: `term_tf` plus total document count. -/
structure IndexWithTf where
  term_tf : TermTf
  doc_count : Nat
deriving DecidableEq

/-- One iteration of the inner loop of `IndexWithTf::build`:
`*term_tf.entry(word).or_default().entry(result.url).or_insert(0) += 1`. -/
def stepWord (u : String) (tt : TermTf) (w : String) : TermTf :=
  updateAL tt w (fun m? => updateAL (m?.getD []) u (fun c? => c?.getD 0 + 1))

/-- One iteration of the outer loop of `IndexWithTf::build`: tokenize the
body text of `r` and bump the count of each word for `r.url`. -/
def stepDoc (tt : TermTf) (r : CrawlResult) : TermTf :=
  (tokenize r.body_text).foldl (stepWord r.url) tt

/-- Embedding of `IndexWithTf::build`. -/
def IndexWithTf.build (results : List CrawlResult) : IndexWithTf :=
  { term_tf := results.foldl stepDoc [], doc_count := results.length }

/-- The count stored in `term_tf` under term `w` and document `u`
(`none` when either key is absent). -/
def getEntry (tt : TermTf) (w u : String) : Option Nat :=
  (lookupAL tt w).bind (fun m => lookupAL m u)

/-- The stored count, defaulting to `0` when a key is absent. -/
def getTf (tt : TermTf) (w u : String) : Nat :=
  (getEntry tt w u).getD 0

theorem getTf_stepWord (tt : TermTf) (w w' u u' : String) :
    getTf (stepWord u tt w') w u' =
      getTf tt w u' + (if w = w' ∧ u' = u then 1 else 0) := by
  by_cases hw : w = w'
  · subst hw
    by_cases hu : u' = u
    · subst hu
      cases h : lookupAL tt w with
      | none =>
        simp [getTf, getEntry, stepWord, lookupAL_updateAL_self, h, updateAL, lookupAL]
      | some m =>
        simp [getTf, getEntry, stepWord, lookupAL_updateAL_self, h]
    · cases h : lookupAL tt w with
      | none =>
        simp [getTf, getEntry, stepWord, lookupAL_updateAL_self, h,
          lookupAL_updateAL_ne _ _ hu, lookupAL, hu, Ne.symm hu]
      | some m =>
        simp [getTf, getEntry, stepWord, lookupAL_updateAL_self, h,
          lookupAL_updateAL_ne _ _ hu, hu]
  · simp [getTf, getEntry, stepWord, lookupAL_updateAL_ne _ _ hw, hw]

theorem getTf_foldWords (ws : List String) (tt : TermTf) (w u u' : String) :
    getTf (ws.foldl (stepWord u) tt) w u' =
      getTf tt w u' + (if u' = u then ws.count w else 0) := by
  induction ws generalizing tt with
  | nil => simp
  | cons w'' ws ih =>
    rw [List.foldl_cons, ih, getTf_stepWord, List.count_cons]
    by_cases hw : w = w'' <;> by_cases hu : u' = u
    · simp [hw, hu]
      ring
    · simp [hw, hu]
    · simp [hw, hu, Ne.symm hw, beq_iff_eq]
    · simp [hw, hu, Ne.symm hw, beq_iff_eq]

theorem getTf_stepDoc (tt : TermTf) (r : CrawlResult) (w u : String) :
    getTf (stepDoc tt r) w u =
      getTf tt w u + (if u = r.url then (tokenize r.body_text).count w else 0) := by
  unfold stepDoc
  rw [getTf_foldWords]

theorem getTf_foldDocs (rs : List CrawlResult) (tt : TermTf) (w u : String) :
    getTf (rs.foldl stepDoc tt) w u =
      getTf tt w u +
        ((rs.filter (fun r => r.url = u)).map
            (fun r => (tokenize r.body_text).count w)).sum := by
  induction rs generalizing tt with
  | nil => simp
  | cons r rs ih =>
    rw [List.foldl_cons, ih, getTf_stepDoc]
    by_cases h : r.url = u
    · subst h
      rw [List.filter_cons_of_pos (by simp)]
      simp [List.sum_cons]
      ring
    · have h' : ¬(u = r.url) := fun hh => h hh.symm
      simp [List.filter_cons, h, h']

theorem filter_url_singleton {results : List CrawlResult} {r : CrawlResult}
    (hnd : (results.map CrawlResult.url).Nodup) (hr : r ∈ results) :
    results.filter (fun x => x.url = r.url) = [r] := by
  induction results with
  | nil => cases hr
  | cons x xs ih =>
    simp only [List.map_cons, List.nodup_cons] at hnd
    rcases List.mem_cons.1 hr with h | h
    · subst h
      have hnil : xs.filter (fun x => x.url = r.url) = [] := by
        rw [List.filter_eq_nil_iff]
        intro y hy
        simp only [decide_eq_true_eq]
        intro hurl
        exact hnd.1 (hurl ▸ List.mem_map_of_mem CrawlResult.url hy)
      rw [List.filter_cons_of_pos (by simp), hnil]
    · have hx : ¬(x.url = r.url) := by
        intro hurl
        exact hnd.1 (hurl ▸ List.mem_map_of_mem CrawlResult.url h)
      rw [List.filter_cons_of_neg (by simp [hx]), ih hnd.2 h]

/-- **C1.** For a duplicate-free list of crawl results, `IndexWithTf::build`
stores, for every token `w` and every result with URL `u`, a `term_tf`
count equal to the number of occurrences of `w` in the tokenization of that
result's body text (a missing key counting as `0`), and `doc_count` equals
the number of results. -/
theorem build_term_tf_counts (results : List CrawlResult) (w : String)
    (r : CrawlResult) (hnd : (results.map CrawlResult.url).Nodup)
    (hr : r ∈ results) :
    getTf (IndexWithTf.build results).term_tf w r.url =
        (tokenize r.body_text).count w
    ∧ (IndexWithTf.build results).doc_count = results.length := by
  constructor
  · show getTf (results.foldl stepDoc []) w r.url = _
    rw [getTf_foldDocs, filter_url_singleton hnd hr]
    simp [getTf, getEntry, lookupAL]
  · rfl

/-- Concrete check discharging the hypotheses of `build_term_tf_counts`:
a single document whose body holds "hello" twice. -/
def docW : CrawlResult :=
  { url := "https://e.x/a", title := "t", body_text := "Hello, hello world!", links := [] }

theorem build_term_tf_counts_witness :
    (([docW].map CrawlResult.url).Nodup ∧ docW ∈ [docW])
    ∧ (getTf (IndexWithTf.build [docW]).term_tf "hello" docW.url =
          (tokenize docW.body_text).count "hello"
        ∧ (IndexWithTf.build [docW]).doc_count = [docW].length) :=
  ⟨⟨by decide, by decide⟩,
    build_term_tf_counts [docW] "hello" docW (by decide) (by decide)⟩

/-! ## Key existence in the built index (C9) -/

theorem lookupAL_stepWord_isSome (tt : TermTf) (w w' u : String) :
    (lookupAL (stepWord u tt w') w).isSome ↔ (lookupAL tt w).isSome ∨ w = w' := by
  by_cases hw : w = w'
  · subst hw
    simp [stepWord, lookupAL_updateAL_self]
  · simp [stepWord, lookupAL_updateAL_ne _ _ hw, hw]

theorem getEntry_stepWord_isSome (tt : TermTf) (w w' u u' : String) :
    (getEntry (stepWord u tt w') w u').isSome ↔
      (getEntry tt w u').isSome ∨ (w = w' ∧ u' = u) := by
  by_cases hw : w = w'
  · subst hw
    by_cases hu : u' = u
    · subst hu
      cases h : lookupAL tt w with
      | none =>
        simp [getEntry, stepWord, lookupAL_updateAL_self, h, updateAL, lookupAL]
      | some m =>
        simp [getEntry, stepWord, lookupAL_updateAL_self, h]
    · cases h : lookupAL tt w with
      | none =>
        simp [getEntry, stepWord, lookupAL_updateAL_self, h,
          lookupAL_updateAL_ne _ _ hu, lookupAL, hu, Ne.symm hu]
      | some m =>
        simp [getEntry, stepWord, lookupAL_updateAL_self, h,
          lookupAL_updateAL_ne _ _ hu, hu]
  · simp [getEntry, stepWord, lookupAL_updateAL_ne _ _ hw, hw]

theorem lookupAL_foldWords_isSome (ws : List String) (tt : TermTf) (w u : String) :
    (lookupAL (ws.foldl (stepWord u) tt) w).isSome ↔
      (lookupAL tt w).isSome ∨ w ∈ ws := by
  induction ws generalizing tt with
  | nil => simp
  | cons w'' ws ih =>
    rw [List.foldl_cons, ih, lookupAL_stepWord_isSome]
    simp only [List.mem_cons]
    tauto

theorem getEntry_foldWords_isSome (ws : List String) (tt : TermTf) (w u u' : String) :
    (getEntry (ws.foldl (stepWord u) tt) w u').isSome ↔
      (getEntry tt w u').isSome ∨ (w ∈ ws ∧ u' = u) := by
  induction ws generalizing tt with
  | nil => simp
  | cons w'' ws ih =>
    rw [List.foldl_cons, ih, getEntry_stepWord_isSome]
    simp only [List.mem_cons]
    tauto

theorem lookupAL_foldDocs_isSome (rs : List CrawlResult) (tt : TermTf) (w : String) :
    (lookupAL (rs.foldl stepDoc tt) w).isSome ↔
      (lookupAL tt w).isSome ∨ ∃ r ∈ rs, w ∈ tokenize r.body_text := by
  induction rs generalizing tt with
  | nil => simp
  | cons r rs ih =>
    rw [List.foldl_cons, ih]
    show ((lookupAL ((tokenize r.body_text).foldl (stepWord r.url) tt) w).isSome ∨ _) ↔ _
    rw [lookupAL_foldWords_isSome]
    simp only [List.mem_cons, exists_eq_or_imp]
    tauto

theorem getEntry_foldDocs_isSome (rs : List CrawlResult) (tt : TermTf) (w u : String) :
    (getEntry (rs.foldl stepDoc tt) w u).isSome ↔
      (getEntry tt w u).isSome ∨ ∃ r ∈ rs, r.url = u ∧ w ∈ tokenize r.body_text := by
  induction rs generalizing tt with
  | nil => simp
  | cons r rs ih =>
    rw [List.foldl_cons, ih]
    show ((getEntry ((tokenize r.body_text).foldl (stepWord r.url) tt) w u).isSome ∨ _) ↔ _
    rw [getEntry_foldWords_isSome]
    constructor
    · rintro (⟨hs | ⟨hw, hu⟩⟩ | ⟨r', hr', hu', hw'⟩)
      · exact Or.inl hs
      · exact Or.inr ⟨r, List.mem_cons_self r rs, hu.symm, hw⟩
      · exact Or.inr ⟨r', List.mem_cons_of_mem r hr', hu', hw'⟩
    · rintro (hs | ⟨r', hr', hu', hw'⟩)
      · exact Or.inl (Or.inl hs)
      · rcases List.mem_cons.1 hr' with rfl | hr''
        · exact Or.inl (Or.inr ⟨hw', hu'.symm⟩)
        · exact Or.inr ⟨r', hr'', hu', hw'⟩

theorem getEntry_build_pos (results : List CrawlResult) (w u : String) (c : Nat)
    (h : getEntry (results.foldl stepDoc []) w u = some c) : 1 ≤ c := by
  have hex : ∃ r ∈ results, r.url = u ∧ w ∈ tokenize r.body_text := by
    have hs := (getEntry_foldDocs_isSome results [] w u).1 (by simp [h])
    simpa [getEntry, lookupAL] using hs
  obtain ⟨r, hr, hurl, hw⟩ := hex
  have hc : c = getTf (results.foldl stepDoc []) w u := by simp [getTf, h]
  rw [getTf_foldDocs] at hc
  have hmem : (tokenize r.body_text).count w ∈
      ((results.filter (fun r => r.url = u)).map
        (fun r => (tokenize r.body_text).count w)) :=
    List.mem_map_of_mem _ (List.mem_filter.2 ⟨hr, by simp [hurl]⟩)
  have hcount : 1 ≤ (tokenize r.body_text).count w := by
    have := List.count_pos_iff.2 hw
    omega
  have hsum := List.single_le_sum (l := (results.filter (fun r => r.url = u)).map
      (fun r => (tokenize r.body_text).count w)) (fun x _ => Nat.zero_le x) _ hmem
  simp [getTf, getEntry, lookupAL] at hc
  omega

/-- **C9.** In a built index every stored count is at least `1`: a term `w`
is a key of `term_tf` iff `w` occurs in the tokenized body text of some
result; `term_tf[w]` has key `u` iff `w` occurs in a result whose URL is
`u`; and every stored count is positive. -/
theorem build_no_zero_counts (results : List CrawlResult) (w u : String) :
    ((lookupAL (IndexWithTf.build results).term_tf w).isSome ↔
        ∃ r ∈ results, w ∈ tokenize r.body_text)
    ∧ ((getEntry (IndexWithTf.build results).term_tf w u).isSome ↔
        ∃ r ∈ results, r.url = u ∧ w ∈ tokenize r.body_text)
    ∧ (∀ c, getEntry (IndexWithTf.build results).term_tf w u = some c → 1 ≤ c) := by
  refine ⟨?_, ?_, ?_⟩
  · rw [show (IndexWithTf.build results).term_tf = results.foldl stepDoc [] from rfl,
      lookupAL_foldDocs_isSome]
    simp [lookupAL]
  · rw [show (IndexWithTf.build results).term_tf = results.foldl stepDoc [] from rfl,
      getEntry_foldDocs_isSome]
    simp [getEntry, lookupAL]
  · intro c hc
    exact getEntry_build_pos results w u c hc

theorem build_no_zero_counts_witness :
    ((lookupAL (IndexWithTf.build [docW]).term_tf "hello").isSome ↔
        ∃ r ∈ [docW], "hello" ∈ tokenize r.body_text)
    ∧ ((getEntry (IndexWithTf.build [docW]).term_tf "hello" "https://e.x/a").isSome ↔
        ∃ r ∈ [docW], r.url = "https://e.x/a" ∧ "hello" ∈ tokenize r.body_text)
    ∧ (∀ c, getEntry (IndexWithTf.build [docW]).term_tf "hello" "https://e.x/a" = some c →
        1 ≤ c) :=
  build_no_zero_counts [docW] "hello" ("https://e.x/a")

/-! ## Simple inverted index and AND search (`index::search`; C7) -/

/-- Embedding of `InvertedIndex`: word -> set of URLs containing that word
(`HashSet<String>` embedded as `Finset String`). -/
abbrev InvertedIndex := List (String × Finset String)

/-- Embedding of `IndexWithTf::as_inverted`. -/
def as_inverted (idx : IndexWithTf) : InvertedIndex :=
  idx.term_tf.map (fun p => (p.1, (p.2.map Prod.fst).toFinset))

/-- `index.get(word).cloned().unwrap_or_default()`: the URL set stored for
`w`, empty when `w` is absent. -/
def wordUrls (index : InvertedIndex) (w : String) : Finset String :=
  (lookupAL index w).getD ∅

/-- One iteration of the loop of `index::search` over the query words. -/
def searchStep (index : InvertedIndex) (urls : Option (Finset String)) (w : String) :
    Option (Finset String) :=
  some (match urls with
        | none => wordUrls index w
        | some u => u ∩ wordUrls index w)

/-- Embedding of `index::search`: intersect the URL sets of all query
words (boolean AND) and return the sorted URL list. -/
def search (index : InvertedIndex) (query : String) : List String :=
  if (tokenize query).isEmpty then []
  else
    match (tokenize query).foldl (searchStep index) none with
    | some u => u.sort (fun a b => a ≤ b)
    | none => []

theorem searchFold_some (index : InvertedIndex) (ws : List String) (s : Finset String) :
    ws.foldl (searchStep index) (some s) =
      some (ws.foldl (fun a w => a ∩ wordUrls index w) s) := by
  induction ws generalizing s with
  | nil => rfl
  | cons w ws ih =>
    rw [List.foldl_cons, List.foldl_cons]
    exact ih _

theorem mem_searchInter (index : InvertedIndex) (ws : List String) (s : Finset String)
    (u : String) :
    u ∈ ws.foldl (fun a w => a ∩ wordUrls index w) s ↔
      u ∈ s ∧ ∀ w ∈ ws, u ∈ wordUrls index w := by
  induction ws generalizing s with
  | nil => simp
  | cons w ws ih =>
    rw [List.foldl_cons, ih]
    simp only [Finset.mem_inter, List.forall_mem_cons]
    tauto

/-- **C7.** The non-ranked search returns exactly the URLs present in the
URL set of every query token (set intersection, AND semantics), sorted in
ascending (lexicographic) string order. -/
theorem search_and_semantics (index : InvertedIndex) (q : String)
    (hq : tokenize q ≠ []) :
    (∀ u, u ∈ search index q ↔ ∀ w ∈ tokenize q, u ∈ wordUrls index w)
    ∧ (search index q).Sorted (fun a b => a ≤ b) := by
  obtain ⟨w0, ws, hws⟩ : ∃ w0 ws, tokenize q = w0 :: ws := by
    cases h : tokenize q with
    | nil => exact absurd h hq
    | cons a l => exact ⟨a, l, rfl⟩
  have hne : (tokenize q).isEmpty = false := by rw [hws]; rfl
  have hfold : (tokenize q).foldl (searchStep index) none =
      some ((ws.foldl (fun a w => a ∩ wordUrls index w) (wordUrls index w0))) := by
    rw [hws, List.foldl_cons]
    exact searchFold_some index ws _
  have hsearch : search index q =
      (ws.foldl (fun a w => a ∩ wordUrls index w) (wordUrls index w0)).sort
        (fun a b => a ≤ b) := by
    unfold search
    rw [hne, hfold]
    rfl
  constructor
  · intro u
    rw [hsearch, Finset.mem_sort, mem_searchInter, hws, List.forall_mem_cons]
  · rw [hsearch]
    exact Finset.sort_sorted _ _

/-- Concrete check discharging the hypothesis of `search_and_semantics`:
the two-token query from the specification's test scenario. -/
def idxAB : InvertedIndex := [("a", {"u", "v"}), ("b", {"v"})]

theorem search_and_semantics_witness :
    (tokenize ("a b") ≠ [])
    ∧ ((∀ u, u ∈ search idxAB ("a b") ↔ ∀ w ∈ tokenize ("a b"), u ∈ wordUrls idxAB w)
      ∧ (search idxAB ("a b")).Sorted (fun a b => a ≤ b)) :=
  ⟨by decide, search_and_semantics idxAB ("a b") (by decide)⟩

/-! ## TF-IDF ranked search (`IndexWithTf::search_ranked`; C2, C10)

The source computes scores in `f64`:
`let idf = ((n + 1.0) / (df + 1.0)).ln() + 1.0` with `n = doc_count` and
`df = url_counts.len()`.  Floating-point `ln` has no executable shallow
embedding, so the embedding abstracts the score arithmetic over an
arbitrary rational-valued function `idf : Nat → Nat → ℚ` of the pair
`(doc_count, df)` and otherwise mirrors the accumulation loop exactly.
All theorems below hold for every such `idf`, in particular for any
rational reading of the source's formula. -/

/-- The inner loop of `search_ranked`:
`*url_scores.entry(url).or_insert(0.0) += tf * idf`. -/
def accumDoc (i : ℚ) (acc : List (String × ℚ)) (p : String × Nat) : List (String × ℚ) :=
  updateAL acc p.1 (fun s? => s?.getD 0 + (p.2 : ℚ) * i)

/-- The outer loop of `search_ranked` over one query word: absent words
are skipped (`None => continue`), otherwise every `(url, tf)` entry of the
word's map accumulates `tf * idf`. -/
def accumWord (idf : Nat → Nat → ℚ) (idx : IndexWithTf) (acc : List (String × ℚ))
    (w : String) : List (String × ℚ) :=
  match lookupAL idx.term_tf w with
  | none => acc
  | some url_counts => url_counts.foldl (accumDoc (idf idx.doc_count url_counts.length)) acc

/-- Embedding of `IndexWithTf::search_ranked`, sorted by score descending. -/
def search_ranked (idf : Nat → Nat → ℚ) (idx : IndexWithTf) (query : String) :
    List (String × ℚ) :=
  if (tokenize query).isEmpty || idx.doc_count == 0 then []
  else ((tokenize query).foldl (accumWord idf idx) []).mergeSort
    (fun a b => decide (b.2 ≤ a.2))

/-- The score recorded for URL `u` in the accumulator (default `0`). -/
def scoreOf (acc : List (String × ℚ)) (u : String) : ℚ :=
  (lookupAL acc u).getD 0

/-- The contribution of one occurrence of query word `w` to the score of
document `u`: `tf * idf`, or `0` when `w` is absent from the index. -/
def wordContrib (idf : Nat → Nat → ℚ) (idx : IndexWithTf) (w u : String) : ℚ :=
  match lookupAL idx.term_tf w with
  | none => 0
  | some m => (((lookupAL m u).getD 0 : Nat) : ℚ) * idf idx.doc_count m.length

/-- Total score of `u`: one `wordContrib` per query-word occurrence
(words counted with multiplicity). -/
def occScore (idf : Nat → Nat → ℚ) (idx : IndexWithTf) (ws : List String) (u : String) : ℚ :=
  (ws.map (fun w => wordContrib idf idx w u)).sum

/-- The score formula claimed by the specification: one `wordContrib` per
distinct query word. -/
def distinctScore (idf : Nat → Nat → ℚ) (idx : IndexWithTf) (ws : List String)
    (u : String) : ℚ :=
  (ws.dedup.map (fun w => wordContrib idf idx w u)).sum

/-- Well-formedness inherited from `HashMap`: each per-term document map
holds every URL key at most once. -/
def WFIndex (idx : IndexWithTf) : Prop :=
  ∀ p ∈ idx.term_tf, ((p.2.map Prod.fst).Nodup)

instance (idx : IndexWithTf) : Decidable (WFIndex idx) := by
  unfold WFIndex
  infer_instance

theorem mem_of_lookupAL {β : Type} {m : List (String × β)} {k : String} {v : β}
    (h : lookupAL m k = some v) : (k, v) ∈ m := by
  induction m with
  | nil => cases h
  | cons p rest ih =>
    obtain ⟨k', v'⟩ := p
    by_cases hk : k' = k
    · subst hk
      simp [lookupAL] at h
      simp [h]
    · simp [lookupAL, hk] at h
      exact List.mem_cons_of_mem _ (ih h)

theorem scoreOf_accumDoc (i : ℚ) (acc : List (String × ℚ)) (p : String × Nat) (u : String) :
    scoreOf (accumDoc i acc p) u =
      scoreOf acc u + (if u = p.1 then (p.2 : ℚ) * i else 0) := by
  obtain ⟨pu, pc⟩ := p
  by_cases h : u = pu
  · subst h
    simp only [scoreOf, accumDoc, lookupAL_updateAL_self, if_pos rfl]
    cases hl : lookupAL acc u <;> simp [hl]
  · simp [scoreOf, accumDoc, lookupAL_updateAL_ne _ _ h, h]

theorem scoreOf_foldDocs (i : ℚ) (m : List (String × Nat))
    (hm : (m.map Prod.fst).Nodup) (acc : List (String × ℚ)) (u : String) :
    scoreOf (m.foldl (accumDoc i) acc) u =
      scoreOf acc u + (((lookupAL m u).getD 0 : Nat) : ℚ) * i := by
  induction m generalizing acc with
  | nil => simp [lookupAL]
  | cons p m' ih =>
    obtain ⟨pu, pc⟩ := p
    simp only [List.map_cons, List.nodup_cons] at hm
    rw [List.foldl_cons, ih hm.2, scoreOf_accumDoc]
    by_cases h : u = pu
    · subst h
      have : lookupAL m' u = none := lookupAL_eq_none hm.1
      simp [lookupAL, this]
    · simp [lookupAL, h, Ne.symm h]

theorem scoreOf_accumWord (idf : Nat → Nat → ℚ) (idx : IndexWithTf)
    (hwf : WFIndex idx) (acc : List (String × ℚ)) (w u : String) :
    scoreOf (accumWord idf idx acc w) u = scoreOf acc u + wordContrib idf idx w u := by
  unfold accumWord wordContrib
  cases h : lookupAL idx.term_tf w with
  | none => simp
  | some m =>
    exact scoreOf_foldDocs _ m (hwf _ (mem_of_lookupAL h)) acc u

theorem scoreOf_foldWords (idf : Nat → Nat → ℚ) (idx : IndexWithTf)
    (hwf : WFIndex idx) (ws : List String) (acc : List (String × ℚ)) (u : String) :
    scoreOf (ws.foldl (accumWord idf idx) acc) u =
      scoreOf acc u + occScore idf idx ws u := by
  induction ws generalizing acc with
  | nil => simp [occScore]
  | cons w ws ih =>
    rw [List.foldl_cons, ih, scoreOf_accumWord idf idx hwf]
    simp [occScore]
    ring

theorem nodup_keys_accumDoc (i : ℚ) (acc : List (String × ℚ)) (p : String × Nat)
    (h : (acc.map Prod.fst).Nodup) : ((accumDoc i acc p).map Prod.fst).Nodup :=
  nodup_keys_updateAL _ _ h

theorem nodup_keys_foldDocs (i : ℚ) (m : List (String × Nat)) (acc : List (String × ℚ))
    (h : (acc.map Prod.fst).Nodup) :
    ((m.foldl (accumDoc i) acc).map Prod.fst).Nodup := by
  induction m generalizing acc with
  | nil => exact h
  | cons p m' ih => exact ih _ (nodup_keys_accumDoc i acc p h)

theorem nodup_keys_accumWord (idf : Nat → Nat → ℚ) (idx : IndexWithTf)
    (acc : List (String × ℚ)) (w : String) (h : (acc.map Prod.fst).Nodup) :
    ((accumWord idf idx acc w).map Prod.fst).Nodup := by
  unfold accumWord
  cases lookupAL idx.term_tf w with
  | none => exact h
  | some m => exact nodup_keys_foldDocs _ m acc h

theorem nodup_keys_foldWords (idf : Nat → Nat → ℚ) (idx : IndexWithTf)
    (ws : List String) (acc : List (String × ℚ)) (h : (acc.map Prod.fst).Nodup) :
    ((ws.foldl (accumWord idf idx) acc).map Prod.fst).Nodup := by
  induction ws generalizing acc with
  | nil => exact h
  | cons w ws ih => exact ih _ (nodup_keys_accumWord idf idx acc w h)

/-- **C10.** `search_ranked` lists each URL at most once, for every index,
query and idf function. -/
theorem search_ranked_nodup (idf : Nat → Nat → ℚ) (idx : IndexWithTf) (q : String) :
    ((search_ranked idf idx q).map Prod.fst).Nodup := by
  unfold search_ranked
  split
  · simp
  · have hperm :=
      (List.mergeSort_perm ((tokenize q).foldl (accumWord idf idx) [])
        (fun a b => decide (b.2 ≤ a.2))).map Prod.fst
    exact hperm.nodup_iff.2 (nodup_keys_foldWords idf idx (tokenize q) [] (by simp))

/-- **C2 (amended).** Every `(url, score)` pair returned by
`search_ranked` carries a score equal to the sum, over all query-token
*occurrences* `t` present in the index (one contribution per occurrence,
not per distinct token), of `tf * idf(doc_count, df)` where `tf` is the
stored count of `t` for that URL and `df` is the number of documents
containing `t`; tokens absent from the index contribute nothing and cause
no error. -/
theorem search_ranked_scores (idf : Nat → Nat → ℚ) (idx : IndexWithTf) (q : String)
    (hwf : WFIndex idx) (u : String) (s : ℚ)
    (hmem : (u, s) ∈ search_ranked idf idx q) :
    s = occScore idf idx (tokenize q) u := by
  unfold search_ranked at hmem
  split at hmem
  · cases hmem
  · have hmem' : (u, s) ∈ (tokenize q).foldl (accumWord idf idx) [] :=
      (List.mergeSort_perm _ _).subset hmem
    have hnd := nodup_keys_foldWords idf idx (tokenize q) [] (by simp)
    have hlk := lookupAL_of_mem hnd hmem'
    have hs := scoreOf_foldWords idf idx hwf (tokenize q) [] u
    simpa [scoreOf, hlk, lookupAL] using hs

/-- Concrete `idf` (constant `1`); on the counterexample index below this
agrees with the source formula, since there `ln((1+1)/(1+1)) + 1 = 1`. -/
def idf1 : Nat → Nat → ℚ := fun _ _ => 1

/-- Counterexample index: one document "u" containing the term "a" once. -/
def idx2 : IndexWithTf := { term_tf := [("a", [("u", 1)])], doc_count := 1 }

theorem tokenize_aa : tokenize ("a a") = ["a", "a"] := by decide

theorem search_ranked_idx2 : search_ranked idf1 idx2 ("a a") = [("u", 2)] := by
  rw [search_ranked, tokenize_aa]
  simp only [List.isEmpty_cons, idx2, Bool.false_or]
  rw [if_neg (by decide)]
  simp only [List.foldl_cons, List.foldl_nil, accumWord, idf1, idx2, lookupAL,
    if_pos rfl, Option.getD_none, Option.getD_some]
  norm_num [accumDoc, updateAL, lookupAL, List.mergeSort]

/-- **C2 (counterexample).** The claim as stated — each *distinct* query
token contributes at most once regardless of its multiplicity in the
query — is false: on the query "a a" the source accumulates the
contribution of "a" twice. -/
theorem search_ranked_distinct_false :
    ¬ (∀ (idf : Nat → Nat → ℚ) (idx : IndexWithTf) (q : String), WFIndex idx →
        ∀ u s, (u, s) ∈ search_ranked idf idx q →
          s = distinctScore idf idx (tokenize q) u) := by
  intro h
  have hmem : ("u", (2 : ℚ)) ∈ search_ranked idf1 idx2 ("a a") := by
    rw [search_ranked_idx2]
    exact List.mem_singleton.2 rfl
  have h2 := h idf1 idx2 ("a a") (by decide) "u" 2 hmem
  have hd : (tokenize ("a a")).dedup = ["a"] := by decide
  rw [distinctScore, hd] at h2
  simp only [List.map_cons, List.map_nil, List.sum_cons, List.sum_nil, wordContrib,
    idx2, idf1, lookupAL, if_pos rfl] at h2
  norm_num [lookupAL] at h2

theorem search_ranked_scores_witness :
    (WFIndex idx2 ∧ ("u", (2 : ℚ)) ∈ search_ranked idf1 idx2 ("a a"))
    ∧ (2 : ℚ) = occScore idf1 idx2 (tokenize ("a a")) "u" := by
  have hmem : ("u", (2 : ℚ)) ∈ search_ranked idf1 idx2 ("a a") := by
    rw [search_ranked_idx2]
    exact List.mem_singleton.2 rfl
  exact ⟨⟨by decide, hmem⟩, search_ranked_scores idf1 idx2 ("a a") (by decide) "u" 2 hmem⟩

/-! ## Crawler (`src/crawler.rs`)

URLs are represented in parsed form.  The external `url` crate guarantees
that every `Url` value is an absolute URL; `Url` below models exactly the
observable fields the source uses (`host_str()` and the fragment), plus
an opaque `rest` carrying everything else.  The crate's `Url::join`
resolution algorithm is external to the repository and is taken as an
arbitrary parameter `joinUrl`; the fragment stripping and same-host
filtering on top of it are code of `crawler.rs` and are embedded exactly.
The network and the HTML parser (`reqwest` + `scraper`, both external) are
an oracle returning, per URL, either a fetch/parse failure or the title,
body text and raw `href` attribute values of the page.  Task completion
order of the `JoinSet` is nondeterministic, so the crawl loop is embedded
as a step relation: each step runs the (deterministic) spawn loop and then
joins one arbitrarily chosen in-flight task. -/

/-- Parsed absolute URL (model of `url::Url`): host (as `host_str()`,
`none` for host-less URLs), remaining serialization, optional fragment. -/
structure Url where
  host : Option String
  rest : String
  fragment : Option String
deriving DecidableEq

/-- Result of crawling a single page, with URLs in parsed form. -/
structure PageResult where
  url : Url
  title : String
  body_text : String
  links : List Url
deriving DecidableEq

/-- Embedding of `normalize_url`: resolve `href` against `base` via the
url crate's `join` (the parameter), then remove the fragment. -/
def normalize_url (join : Url → String → Option Url) (base : Url) (href : String) :
    Option Url :=
  (join base href).map (fun parsed => { parsed with fragment := none })

/-- Embedding of `same_domain`: `start.host_str() == other.host_str()`. -/
def same_domain (start other : Url) : Bool :=
  decide (start.host = other.host)

/-- Crawl-run environment: the url crate's `join`, the network/HTML oracle
(`none` = fetch or parse failure, otherwise title, body text and the raw
`href` values of the page), and the crawl limits. -/
structure Cfg where
  joinUrl : Url → String → Option Url
  oracle : Url → Option (String × String × List String)
  maxPages : Nat
  maxDepth : Nat

/-- Embedding of `fetch_page_async`: on fetch success, keep each `href`
that normalizes and passes the same-host check against the page's own URL. -/
def fetch_page_async (c : Cfg) (u : Url) : Option PageResult :=
  (c.oracle u).map (fun x =>
    { url := u, title := x.1, body_text := x.2.1,
      links := x.2.2.filterMap (fun href =>
        match normalize_url c.joinUrl u href with
        | some absolute => if same_domain u absolute then some absolute else none
        | none => none) })

/-- Orchestrator state: frontier queue, visited set, in-flight tasks
(with their frontier depth), and completed results (paired with the depth
of the frontier entry they originate from — the source carries this depth
through the task tuple and drops it after use; it is kept here so depth
claims are statable). -/
structure St where
  queue : List (Url × Nat)
  visited : List Url
  inflight : List (Url × Nat)
  results : List (PageResult × Nat)
deriving DecidableEq

/-- The spawn loop of `crawl_async`:
`while results.len() + join_set.len() < max_pages`, pop the frontier;
drop entries that are too deep or already visited; otherwise mark visited
and dispatch.  (The while-condition is re-checked before each pop; popping
first and restoring the entry when the condition fails is equivalent.) -/
def spawnGo (mp md : Nat) : List (Url × Nat) → List Url → List (Url × Nat) →
    List (PageResult × Nat) → St
  | [], vis, inf, res => ⟨[], vis, inf, res⟩
  | (u, d) :: rest, vis, inf, res =>
    if res.length + inf.length < mp then
      if md < d ∨ u ∈ vis then spawnGo mp md rest vis inf res
      else spawnGo mp md rest (u :: vis) (inf ++ [(u, d)]) res
    else ⟨(u, d) :: rest, vis, inf, res⟩

/-- Run the spawn loop on a state. -/
def spawnAll (c : Cfg) (s : St) : St :=
  spawnGo c.maxPages c.maxDepth s.queue s.visited s.inflight s.results

/-- Join one completed task `(u, d)` (an arbitrary element of the
in-flight list, split as `pre ++ (u, d) :: post`): on fetch failure the
result is discarded; on success the result is appended and every link not
yet visited is pushed onto the frontier at depth `d + 1`. -/
def joinOne (c : Cfg) (s : St) (pre : List (Url × Nat)) (u : Url) (d : Nat)
    (post : List (Url × Nat)) : St :=
  match fetch_page_async c u with
  | none => { s with inflight := pre ++ post }
  | some r =>
    { queue := s.queue ++ (r.links.filter (fun l => l ∉ s.visited)).map (fun l => (l, d + 1)),
      visited := s.visited,
      inflight := pre ++ post,
      results := s.results ++ [(r, d)] }

/-- One iteration of the main loop of `crawl_async`: run the spawn loop,
then join whichever in-flight task completes first (nondeterministic). -/
inductive Step (c : Cfg) : St → St → Prop where
  | join (s : St) (pre post : List (Url × Nat)) (u : Url) (d : Nat)
      (hin : (spawnAll c s).inflight = pre ++ (u, d) :: post) :
      Step c s (joinOne c (spawnAll c s) pre u d post)

/-- Initial state: the frontier seeded with `(start_url, 0)`. -/
def init (seed : Url) : St :=
  ⟨[(seed, 0)], [], [], []⟩

/-- Reachability under the crawl loop. -/
def Reaches (c : Cfg) (s t : St) : Prop :=
  Relation.ReflTransGen (Step c) s t

/-- `out` is a possible return value of the crawl loop from `seed`: some
reachable state whose spawn phase leaves no task in flight (the loop's
exit condition) with result collection `out`. -/
def crawlOutputs (c : Cfg) (seed : Url) (out : List (PageResult × Nat)) : Prop :=
  ∃ s, Reaches c (init seed) s ∧ (spawnAll c s).inflight = [] ∧ out = (spawnAll c s).results

/-- Embedding of the `Result` returned by `crawl_async`: `Url::parse`
failure on the seed is the only error path (the `?` on semaphore
acquisition and task join cannot fire absent panics: the semaphore is
never closed and the spawned closures do not panic). -/
def crawl_async (parse : String → Option Url) (c : Cfg) (start_url : String)
    (res : Except String (List (PageResult × Nat))) : Prop :=
  match parse start_url with
  | none => res = Except.error start_url
  | some seed => ∃ out, res = Except.ok out ∧ crawlOutputs c seed out

theorem spawnGo_results (mp md : Nat) (qs : List (Url × Nat)) (vis : List Url)
    (inf : List (Url × Nat)) (res : List (PageResult × Nat)) :
    (spawnGo mp md qs vis inf res).results = res := by
  induction qs generalizing vis inf res with
  | nil => rfl
  | cons p rest ih =>
    obtain ⟨u, d⟩ := p
    simp only [spawnGo]
    split
    · split
      · exact ih ..
      · exact ih ..
    · rfl

/-- Guarantees of `fetch_page_async` on success: the result carries the
fetched URL, and every link has the page's own host and no fragment. -/
theorem fetch_page_spec (c : Cfg) (u : Url) (r : PageResult)
    (h : fetch_page_async c u = some r) :
    r.url = u ∧ ∀ l ∈ r.links, l.host = u.host ∧ l.fragment = none := by
  unfold fetch_page_async at h
  cases ho : c.oracle u with
  | none =>
    rw [ho] at h
    cases h
  | some x =>
    rw [ho] at h
    simp only [Option.map_some'] at h
    obtain rfl := Option.some.inj h
    refine ⟨rfl, ?_⟩
    intro l hl
    simp only [List.mem_filterMap] at hl
    obtain ⟨href, _, hnorm⟩ := hl
    cases hn : normalize_url c.joinUrl u href with
    | none =>
      rw [hn] at hnorm
      cases hnorm
    | some absolute =>
      rw [hn] at hnorm
      by_cases hsd : same_domain u absolute
      · simp only [hsd, if_true, Option.some.injEq] at hnorm
        obtain rfl := hnorm
        constructor
        · exact (of_decide_eq_true hsd).symm
        · unfold normalize_url at hn
          cases hj : c.joinUrl u href with
          | none =>
            rw [hj] at hn
            cases hn
          | some parsed =>
            rw [hj] at hn
            simp only [Option.map_some'] at hn
            obtain rfl := Option.some.inj hn
            rfl
      · simp only [hsd, if_false] at hnorm
        simp at hnorm

/-- The inductive invariant of the crawl loop, relative to the seed. -/
structure Inv (c : Cfg) (seed : Url) (s : St) : Prop where
  pageBound : s.results.length + s.inflight.length ≤ c.maxPages
  keysNodup : ((s.results.map (fun p => p.1.url)) ++ s.inflight.map Prod.fst).Nodup
  resVisited : ∀ p ∈ s.results, (p : PageResult × Nat).1.url ∈ s.visited
  infVisited : ∀ q ∈ s.inflight, (q : Url × Nat).1 ∈ s.visited
  infDepth : ∀ q ∈ s.inflight, (q : Url × Nat).2 ≤ c.maxDepth
  resDepth : ∀ p ∈ s.results, (p : PageResult × Nat).2 ≤ c.maxDepth
  queueHost : ∀ q ∈ s.queue, (q : Url × Nat).1.host = seed.host
  infHost : ∀ q ∈ s.inflight, (q : Url × Nat).1.host = seed.host
  resHost : ∀ p ∈ s.results, (p : PageResult × Nat).1.url.host = seed.host
  linksGood : ∀ p ∈ s.results, ∀ l ∈ (p : PageResult × Nat).1.links,
    l.host = seed.host ∧ l.fragment = none

theorem init_inv (c : Cfg) (seed : Url) : Inv c seed (init seed) := by
  refine ⟨Nat.zero_le _, List.nodup_nil, ?_, ?_, ?_, ?_, ?_, ?_, ?_, ?_⟩
  · intro p hp
    exact absurd hp (List.not_mem_nil p)
  · intro q hq
    exact absurd hq (List.not_mem_nil q)
  · intro q hq
    exact absurd hq (List.not_mem_nil q)
  · intro p hp
    exact absurd hp (List.not_mem_nil p)
  · intro q hq
    obtain rfl := List.mem_singleton.1 hq
    rfl
  · intro q hq
    exact absurd hq (List.not_mem_nil q)
  · intro p hp
    exact absurd hp (List.not_mem_nil p)
  · intro p hp
    exact absurd hp (List.not_mem_nil p)

theorem spawnGo_inv {c : Cfg} {seed : Url} (qs : List (Url × Nat)) (vis : List Url)
    (inf : List (Url × Nat)) (res : List (PageResult × Nat))
    (h : Inv c seed ⟨qs, vis, inf, res⟩) :
    Inv c seed (spawnGo c.maxPages c.maxDepth qs vis inf res) := by
  induction qs generalizing vis inf res with
  | nil => exact h
  | cons p rest ih =>
    obtain ⟨u, d⟩ := p
    simp only [spawnGo]
    split
    · split
      · exact ih vis inf res
          ⟨h.pageBound, h.keysNodup, h.resVisited, h.infVisited, h.infDepth, h.resDepth,
            fun q hq => h.queueHost q (List.mem_cons_of_mem _ hq), h.infHost, h.resHost,
            h.linksGood⟩
      · rename_i hlt hskip
        push_neg at hskip
        obtain ⟨hdepth, hvis⟩ := hskip
        have huhost : u.host = seed.host := h.queueHost (u, d) (List.mem_cons_self _ _)
        have hunew : u ∉ (res.map (fun p => p.1.url)) ++ inf.map Prod.fst := by
          intro hmem
          rcases List.mem_append.1 hmem with hm | hm
          · obtain ⟨p, hp, hpu⟩ := List.mem_map.1 hm
            exact hvis (hpu ▸ h.resVisited p hp)
          · obtain ⟨q, hq, hqu⟩ := List.mem_map.1 hm
            exact hvis (hqu ▸ h.infVisited q hq)
        refine ih (u :: vis) (inf ++ [(u, d)]) res ⟨?_, ?_, ?_, ?_, ?_, ?_, ?_, ?_, ?_, ?_⟩
        · simp only [List.length_append, List.length_cons, List.length_nil]
          omega
        · have hperm : ((res.map (fun p => p.1.url)) ++ (inf ++ [(u, d)]).map Prod.fst).Perm
              (u :: ((res.map (fun p => p.1.url)) ++ inf.map Prod.fst)) := by
            simp only [List.map_append, List.map_cons, List.map_nil, ← List.append_assoc]
            exact List.perm_append_singleton _ _
          exact hperm.nodup_iff.2 (List.nodup_cons.2 ⟨hunew, h.keysNodup⟩)
        · exact fun p hp => List.mem_cons_of_mem _ (h.resVisited p hp)
        · intro q hq
          rcases List.mem_append.1 hq with hm | hm
          · exact List.mem_cons_of_mem _ (h.infVisited q hm)
          · obtain rfl := List.mem_singleton.1 hm
            exact List.mem_cons_self _ _
        · intro q hq
          rcases List.mem_append.1 hq with hm | hm
          · exact h.infDepth q hm
          · obtain rfl := List.mem_singleton.1 hm
            omega
        · exact h.resDepth
        · exact fun q hq => h.queueHost q (List.mem_cons_of_mem _ hq)
        · intro q hq
          rcases List.mem_append.1 hq with hm | hm
          · exact h.infHost q hm
          · obtain rfl := List.mem_singleton.1 hm
            exact huhost
        · exact h.resHost
        · exact h.linksGood
    · exact h

theorem spawnAll_inv {c : Cfg} {seed : Url} {s : St} (h : Inv c seed s) :
    Inv c seed (spawnAll c s) := by
  obtain ⟨qs, vis, inf, res⟩ := s
  exact spawnGo_inv qs vis inf res h

theorem joinOne_inv {c : Cfg} {seed : Url} {s : St} {pre post : List (Url × Nat)}
    {u : Url} {d : Nat} (hin : s.inflight = pre ++ (u, d) :: post)
    (h : Inv c seed s) : Inv c seed (joinOne c s pre u d post) := by
  have hu_mem : (u, d) ∈ s.inflight := by
    rw [hin]
    exact List.mem_append_right _ (List.mem_cons_self _ _)
  have hsub : ∀ q ∈ pre ++ post, q ∈ s.inflight := by
    intro q hq
    rw [hin]
    rcases List.mem_append.1 hq with hm | hm
    · exact List.mem_append_left _ hm
    · exact List.mem_append_right _ (List.mem_cons_of_mem _ hm)
  have hlen : pre.length + post.length + 1 = s.inflight.length := by
    rw [hin]
    simp only [List.length_append, List.length_cons]
    omega
  have hsubl : ((pre ++ post).map Prod.fst).Sublist (s.inflight.map Prod.fst) := by
    rw [hin]
    exact List.Sublist.map _ (List.Sublist.append_left (List.sublist_cons_self _ _) _)
  cases hfp : fetch_page_async c u with
  | none =>
    have hj : joinOne c s pre u d post = { s with inflight := pre ++ post } := by
      unfold joinOne
      rw [hfp]
    rw [hj]
    refine ⟨?_, ?_, h.resVisited, fun q hq => h.infVisited q (hsub q hq),
      fun q hq => h.infDepth q (hsub q hq), h.resDepth, h.queueHost,
      fun q hq => h.infHost q (hsub q hq), h.resHost, h.linksGood⟩
    · have := h.pageBound
      show s.results.length + (pre ++ post).length ≤ c.maxPages
      simp only [List.length_append]
      omega
    · exact List.Nodup.sublist (List.Sublist.append_left hsubl _) h.keysNodup
  | some r =>
    obtain ⟨hru, hrl⟩ := fetch_page_spec c u r hfp
    have huhost : u.host = seed.host := h.infHost _ hu_mem
    have hud : d ≤ c.maxDepth := h.infDepth _ hu_mem
    have huvis : u ∈ s.visited := h.infVisited _ hu_mem
    have hj : joinOne c s pre u d post =
        ⟨s.queue ++ (r.links.filter (fun l => l ∉ s.visited)).map (fun l => (l, d + 1)),
          s.visited, pre ++ post, s.results ++ [(r, d)]⟩ := by
      unfold joinOne
      rw [hfp]
    rw [hj]
    refine ⟨?_, ?_, ?_, ?_, ?_, ?_, ?_, ?_, ?_, ?_⟩
    · have := h.pageBound
      show (s.results ++ [(r, d)]).length + (pre ++ post).length ≤ c.maxPages
      simp only [List.length_append, List.length_cons, List.length_nil]
      omega
    · show (((s.results ++ [(r, d)]).map (fun p => p.1.url)) ++
          (pre ++ post).map Prod.fst).Nodup
      have hkn := h.keysNodup
      rw [hin] at hkn
      have hperm : (((s.results ++ [(r, d)]).map (fun p => p.1.url)) ++
          (pre ++ post).map Prod.fst).Perm
            ((s.results.map (fun p => p.1.url)) ++ (pre ++ (u, d) :: post).map Prod.fst) := by
        simp only [List.map_append, List.map_cons, List.map_nil, hru]
        rw [List.append_assoc]
        refine List.Perm.append_left _ ?_
        show (u :: (pre.map Prod.fst ++ post.map Prod.fst)).Perm
          (pre.map Prod.fst ++ u :: post.map Prod.fst)
        exact List.perm_middle.symm
      exact hperm.nodup_iff.2 hkn
    · intro p hp
      rcases List.mem_append.1 hp with hm | hm
      · exact h.resVisited p hm
      · obtain rfl := List.mem_singleton.1 hm
        show r.url ∈ s.visited
        rw [hru]
        exact huvis
    · exact fun q hq => h.infVisited q (hsub q hq)
    · exact fun q hq => h.infDepth q (hsub q hq)
    · intro p hp
      rcases List.mem_append.1 hp with hm | hm
      · exact h.resDepth p hm
      · obtain rfl := List.mem_singleton.1 hm
        exact hud
    · intro q hq
      rcases List.mem_append.1 hq with hm | hm
      · exact h.queueHost q hm
      · obtain ⟨l, hl, hlq⟩ := List.mem_map.1 hm
        have hll : l ∈ r.links := (List.mem_filter.1 hl).1
        have hlh := (hrl l hll).1
        rw [← hlq]
        show l.host = seed.host
        rw [hlh]
        exact huhost
    · exact fun q hq => h.infHost q (hsub q hq)
    · intro p hp
      rcases List.mem_append.1 hp with hm | hm
      · exact h.resHost p hm
      · obtain rfl := List.mem_singleton.1 hm
        show r.url.host = seed.host
        rw [hru]
        exact huhost
    · intro p hp
      rcases List.mem_append.1 hp with hm | hm
      · exact h.linksGood p hm
      · obtain rfl := List.mem_singleton.1 hm
        intro l hl
        obtain ⟨hlh, hlf⟩ := hrl l hl
        exact ⟨hlh.trans huhost, hlf⟩

theorem step_inv {c : Cfg} {seed : Url} {s t : St} (hst : Step c s t)
    (h : Inv c seed s) : Inv c seed t := by
  cases hst with
  | join pre post u d hin => exact joinOne_inv hin (spawnAll_inv h)

theorem reaches_inv {c : Cfg} {seed : Url} {s : St}
    (h : Reaches c (init seed) s) : Inv c seed s := by
  induction h with
  | refl => exact init_inv c seed
  | tail _ hstep ih => exact step_inv hstep ih

theorem spawnAll_results (c : Cfg) (s : St) : (spawnAll c s).results = s.results := by
  obtain ⟨qs, vis, inf, res⟩ := s
  exact spawnGo_results ..

/-- **C3.** For every crawl with page limit `maxPages`, every possible
returned result collection (under any interleaving of task completions)
has at most `maxPages` elements. -/
theorem crawl_max_pages (c : Cfg) (seed : Url) (out : List (PageResult × Nat))
    (h : crawlOutputs c seed out) : out.length ≤ c.maxPages := by
  obtain ⟨s, hreach, hinf, hout⟩ := h
  have hinv := spawnAll_inv (reaches_inv hreach)
  have := hinv.pageBound
  rw [hout]
  omega

/-- **C4.** Under any interleaving, no URL appears twice in the result
collection, and every result's URL is in the visited set. -/
theorem crawl_nodup_visited (c : Cfg) (seed : Url) (s : St)
    (h : Reaches c (init seed) s) :
    ((spawnAll c s).results.map (fun p => p.1.url)).Nodup
    ∧ ∀ p ∈ (spawnAll c s).results,
        (p : PageResult × Nat).1.url ∈ (spawnAll c s).visited := by
  have hinv := spawnAll_inv (reaches_inv h)
  exact ⟨(List.nodup_append.1 hinv.keysNodup).1, hinv.resVisited⟩

/-- **C5.** Every link of every result has the same host as the seed URL
and carries no fragment.  (Absoluteness is carried by the `Url` type
itself: the url crate's `Url` values are always absolute.) -/
theorem crawl_links_same_host (c : Cfg) (seed : Url) (s : St)
    (h : Reaches c (init seed) s) :
    ∀ p ∈ (spawnAll c s).results, ∀ l ∈ (p : PageResult × Nat).1.links,
      l.host = seed.host ∧ l.fragment = none :=
  (spawnAll_inv (reaches_inv h)).linksGood

/-- **C6.** The seed enters the frontier at depth `0` (and, by definition
of `joinOne`, a link discovered at depth `d` is enqueued at `d + 1`);
entries are dispatched only when their depth is at most `maxDepth` (deeper
entries are dropped by the spawn loop without dispatch), so every
in-flight task and every returned result originates from a frontier entry
of depth at most `maxDepth`. -/
theorem crawl_depth_bound (c : Cfg) (seed : Url) (s : St)
    (h : Reaches c (init seed) s) :
    (∀ p ∈ (spawnAll c s).results, (p : PageResult × Nat).2 ≤ c.maxDepth)
    ∧ (∀ q ∈ (spawnAll c s).inflight, (q : Url × Nat).2 ≤ c.maxDepth)
    ∧ (init seed).queue = [(seed, 0)] := by
  have hinv := spawnAll_inv (reaches_inv h)
  exact ⟨hinv.resDepth, hinv.infDepth, rfl⟩

/-! ### Termination and error behaviour with an all-failing network (C8) -/

theorem spawnGo_measure (mp md : Nat) (qs : List (Url × Nat)) (vis : List Url)
    (inf : List (Url × Nat)) (res : List (PageResult × Nat)) :
    (spawnGo mp md qs vis inf res).queue.length +
        (spawnGo mp md qs vis inf res).inflight.length ≤ qs.length + inf.length := by
  induction qs generalizing vis inf res with
  | nil => simp [spawnGo]
  | cons p rest ih =>
    obtain ⟨u, d⟩ := p
    simp only [spawnGo]
    split
    · split
      · have := ih vis inf res
        simp only [List.length_cons]
        omega
      · have := ih (u :: vis) (inf ++ [(u, d)]) res
        simp only [List.length_append, List.length_cons, List.length_nil] at this ⊢
        omega
    · simp only [List.length_cons]
      omega

theorem spawnAll_measure (c : Cfg) (s : St) :
    (spawnAll c s).queue.length + (spawnAll c s).inflight.length ≤
      s.queue.length + s.inflight.length := by
  obtain ⟨qs, vis, inf, res⟩ := s
  exact spawnGo_measure ..

theorem reaches_results_nil {c : Cfg} {seed : Url} (hfail : ∀ u, c.oracle u = none)
    {s : St} (h : Reaches c (init seed) s) : s.results = [] := by
  induction h with
  | refl => rfl
  | tail _ hstep ih =>
    cases hstep with
    | join pre post u d hin =>
      have hfp : fetch_page_async c u = none := by
        simp [fetch_page_async, hfail u]
      simp [joinOne, hfp, spawnAll_results, ih]

theorem exists_terminal (c : Cfg) (hfail : ∀ u, c.oracle u = none) :
    ∀ n (s : St), s.queue.length + s.inflight.length ≤ n →
      ∃ t, Reaches c s t ∧ (spawnAll c t).inflight = [] := by
  intro n
  induction n with
  | zero =>
    intro s hs
    refine ⟨s, Relation.ReflTransGen.refl, ?_⟩
    have hq : s.queue = [] := List.length_eq_zero.1 (by omega)
    have hi : s.inflight = [] := List.length_eq_zero.1 (by omega)
    obtain ⟨qs, vis, inf, res⟩ := s
    simp only at hq hi
    subst hq
    subst hi
    rfl
  | succ n ih =>
    intro s hs
    cases hinf : (spawnAll c s).inflight with
    | nil => exact ⟨s, Relation.ReflTransGen.refl, hinf⟩
    | cons q rest =>
      obtain ⟨u, d⟩ := q
      have hstep : Step c s (joinOne c (spawnAll c s) [] u d rest) :=
        Step.join s [] rest u d (by rw [hinf]; rfl)
      have hfp : fetch_page_async c u = none := by
        simp [fetch_page_async, hfail u]
      have hmeas : (joinOne c (spawnAll c s) [] u d rest).queue.length +
          (joinOne c (spawnAll c s) [] u d rest).inflight.length ≤ n := by
        have h1 := spawnAll_measure c s
        have h2 : (spawnAll c s).inflight.length = rest.length + 1 := by
          rw [hinf]
          simp
        simp only [joinOne, hfp, List.nil_append]
        omega
      obtain ⟨t, hreach, ht⟩ := ih _ hmeas
      exact ⟨t, Relation.ReflTransGen.head hstep hreach, ht⟩

/-- **C8.** When the seed URL parses, the crawl terminates successfully
even when every fetch fails: some run exists, every run returns the empty
result collection, `crawl_async` returns `Ok` (never an error — the only
error path is seed-URL parsing), and the index built from the empty
result collection is empty with `doc_count = 0`. -/
theorem crawl_seed_only_error (parse : String → Option Url) (c : Cfg)
    (start_url : String) (seed : Url) (hparse : parse start_url = some seed)
    (hfail : ∀ u, c.oracle u = none) :
    (∃ out, crawlOutputs c seed out)
    ∧ (∀ out, crawlOutputs c seed out → out = [])
    ∧ (∀ res, crawl_async parse c start_url res →
        ∃ out, res = Except.ok out ∧ out = [])
    ∧ (IndexWithTf.build []).term_tf = [] ∧ (IndexWithTf.build []).doc_count = 0 := by
  obtain ⟨t, hreach, ht⟩ := exists_terminal c hfail
    ((init seed).queue.length + (init seed).inflight.length) (init seed) le_rfl
  have hempty : ∀ out, crawlOutputs c seed out → out = [] := by
    intro out hco
    obtain ⟨s, hr, _, hout⟩ := hco
    rw [hout, spawnAll_results]
    exact reaches_results_nil hfail hr
  refine ⟨⟨(spawnAll c t).results, t, hreach, ht, rfl⟩, hempty, ?_, rfl, rfl⟩
  intro res hres
  unfold crawl_async at hres
  rw [hparse] at hres
  obtain ⟨out, hok, hco⟩ := hres
  exact ⟨out, hok, hempty out hco⟩

/-! ### Concrete crawl run used by the witnesses -/

/-- Seed URL of the concrete run. -/
def seedW : Url := ⟨some ("h"), "/", none⟩

/-- Concrete environment: resolution always fails, every fetch fails,
one page, depth three. -/
def cfgW : Cfg :=
  { joinUrl := fun _ _ => none, oracle := fun _ => none, maxPages := 1, maxDepth := 3 }

/-- State after one loop iteration of the concrete run: the seed is
dispatched by the spawn phase and its (failing) fetch is joined. -/
def stW : St := joinOne cfgW (spawnAll cfgW (init seedW)) [] seedW 0 []

theorem reachW : Reaches cfgW (init seedW) stW :=
  Relation.ReflTransGen.single (Step.join (init seedW) [] [] seedW 0 (by decide))

theorem crawlOutputsW : crawlOutputs cfgW seedW [] :=
  ⟨stW, reachW, by decide, by decide⟩

theorem crawl_max_pages_witness :
    crawlOutputs cfgW seedW [] ∧ ([] : List (PageResult × Nat)).length ≤ cfgW.maxPages :=
  ⟨crawlOutputsW, crawl_max_pages cfgW seedW [] crawlOutputsW⟩

theorem crawl_nodup_visited_witness :
    Reaches cfgW (init seedW) stW
    ∧ (((spawnAll cfgW stW).results.map (fun p => p.1.url)).Nodup
      ∧ ∀ p ∈ (spawnAll cfgW stW).results,
          (p : PageResult × Nat).1.url ∈ (spawnAll cfgW stW).visited) :=
  ⟨reachW, crawl_nodup_visited cfgW seedW stW reachW⟩

theorem crawl_links_same_host_witness :
    Reaches cfgW (init seedW) stW
    ∧ ∀ p ∈ (spawnAll cfgW stW).results, ∀ l ∈ (p : PageResult × Nat).1.links,
        l.host = seedW.host ∧ l.fragment = none :=
  ⟨reachW, crawl_links_same_host cfgW seedW stW reachW⟩

theorem crawl_depth_bound_witness :
    Reaches cfgW (init seedW) stW
    ∧ ((∀ p ∈ (spawnAll cfgW stW).results, (p : PageResult × Nat).2 ≤ cfgW.maxDepth)
      ∧ (∀ q ∈ (spawnAll cfgW stW).inflight, (q : Url × Nat).2 ≤ cfgW.maxDepth)
      ∧ (init seedW).queue = [(seedW, 0)]) :=
  ⟨reachW, crawl_depth_bound cfgW seedW stW reachW⟩

/-- Concrete parse function for the C8 witness. -/
def parseW : String → Option Url := fun str => if str = ("u") then some seedW else none

theorem crawl_seed_only_error_witness :
    (parseW ("u") = some seedW ∧ ∀ u, cfgW.oracle u = none)
    ∧ ((∃ out, crawlOutputs cfgW seedW out)
      ∧ (∀ out, crawlOutputs cfgW seedW out → out = [])
      ∧ (∀ res, crawl_async parseW cfgW ("u") res →
          ∃ out, res = Except.ok out ∧ out = [])
      ∧ (IndexWithTf.build []).term_tf = [] ∧ (IndexWithTf.build []).doc_count = 0) :=
  ⟨⟨by decide, fun _ => rfl⟩,
    crawl_seed_only_error parseW cfgW ("u") seedW (by decide) (fun _ => rfl)⟩

end RustySearch
